import Mathlib

/-!
Shallow embedding of `build.js`, a static-asset build pipeline
(minification, optional filename obfuscation, optional domain-lock
injection).  File contents and filenames are modelled as `List Char`
(the JavaScript code manipulates them as strings).  The external
minifier libraries (`terser`, `html-minifier-terser`) are modelled as
oracle parameters of type `List Char → Except Unit (List Char)`:
`.ok` is a successful minification, `.error` a thrown exception.
The regex-based text substitutions of `build.js` are embedded as
left-to-right scanning functions implementing the exact semantics of
the corresponding JavaScript `String.prototype.replace` calls with a
global regex: find the leftmost match, emit the replacement, resume
scanning immediately after the matched text.
-/

set_option autoImplicit false

namespace GulluBuild

/-- Characters matched by the JavaScript regular-expression class `\s`
(whitespace), used by the CSS-minification regexes in `build.js` lines
172-176 and by `String.prototype.trim`. -/
def isWS (c : Char) : Bool :=
  let n := c.toNat
  n == 0x20 || n == 0x09 || n == 0x0a || n == 0x0d || n == 0x0b || n == 0x0c ||
  n == 0xa0 || n == 0x1680 || (decide (0x2000 ≤ n) && decide (n ≤ 0x200a)) ||
  n == 0x2028 || n == 0x2029 || n == 0x202f || n == 0x205f || n == 0x3000 ||
  n == 0xfeff

/-- Characters of the regex class in `.replace(/\s*([{}:;,])\s*/g, "$1")`
(`build.js` line 175): left brace, right brace, colon, semicolon, comma. -/
def isSpecial (c : Char) : Bool :=
  let n := c.toNat
  n == 0x7b || n == 0x7d || n == 0x3a || n == 0x3b || n == 0x2c

/-- Scanner for `css.replace(/\/\*[\s\S]*?\*\//g, "")` (`build.js` line
173).  First argument is the mode: `none` is ordinary scanning; `some
acc` means we are inside a candidate comment whose raw text so far
(opening slash-star included) is `acc.reverse`.  The lazy `[\s\S]*?`
makes each comment run from a `/*` to the first following `*/`; a
matched comment is deleted and scanning resumes after it, exactly as
the global `replace` does.  A `/*` never followed by `*/` matches
nothing, so its accumulated text is emitted verbatim at the end. -/
def rcAux : Option (List Char) → List Char → List Char
  | none, [] => []
  | none, [c] => [c]
  | none, a :: b :: rest =>
    if a = '/' ∧ b = '*' then rcAux (some ['*', '/']) rest
    else a :: rcAux none (b :: rest)
  | some acc, [] => acc.reverse
  | some acc, [c] => (c :: acc).reverse
  | some acc, a :: b :: rest =>
    if a = '*' ∧ b = '/' then rcAux none rest
    else rcAux (some (a :: acc)) (b :: rest)

/-- Embedding of `css.replace(/\/\*[\s\S]*?\*\//g, "")` (`build.js`
line 173): delete every block comment. -/
def removeComments (l : List Char) : List Char :=
  rcAux none l

/-- Scanner for `.replace(/\s+/g, " ")` (`build.js` line 174).  The
flag records whether we are inside a whitespace run for which the
single replacement space has already been emitted: the greedy `\s+`
consumes a maximal whitespace run, which the global `replace` turns
into one space. -/
def cwAux : Bool → List Char → List Char
  | _, [] => []
  | inRun, c :: rest =>
    if isWS c then
      if inRun then cwAux true rest else ' ' :: cwAux true rest
    else c :: cwAux false rest

/-- Embedding of `.replace(/\s+/g, " ")` (`build.js` line 174): every
maximal run of whitespace characters becomes a single space. -/
def collapseWS (l : List Char) : List Char :=
  cwAux false l

/-- Scanner for `.replace(/\s*([{}:;,])\s*/g, "$1")` (`build.js` line
175).  Each match is a (possibly empty) whitespace run, a special
character, and a (possibly empty) whitespace run, replaced by the
special character alone; scanning is left to right, resuming after
each match, exactly as the global `replace` does.  `afterSp` records
that the trailing `\s*` of the previous match is still consuming
whitespace; `pend` holds a pending whitespace run that is deleted if a
special character follows it (it then belongs to a match's leading
`\s*`) and emitted verbatim otherwise (a whitespace run followed by no
special character matches at none of its positions). -/
def ssAux : Bool → List Char → List Char → List Char
  | _, pend, [] => pend
  | afterSp, pend, c :: rest =>
    if isSpecial c then c :: ssAux true [] rest
    else if isWS c then
      if afterSp then ssAux true pend rest
      else ssAux false (pend ++ [c]) rest
    else pend ++ c :: ssAux false [] rest

/-- Embedding of `.replace(/\s*([{}:;,])\s*/g, "$1")` (`build.js` line
175): strip whitespace adjacent to `{ } : ; ,`. -/
def stripSpecial (l : List Char) : List Char :=
  ssAux false [] l

/-- Embedding of `.trim()` (`build.js` line 176): remove leading and
trailing whitespace. -/
def trimChars (l : List Char) : List Char :=
  ((l.dropWhile isWS).reverse.dropWhile isWS).reverse

/-- The whole CSS minification of `build.js` lines 172-176: strip block
comments, collapse whitespace runs to single spaces, strip whitespace
around `{ } : ; ,`, then trim. -/
def cssMinify (l : List Char) : List Char :=
  trimChars (stripSpecial (collapseWS (removeComments l)))

/-- Double or single quote, the character class `["']` of the script-src
regex built at `build.js` line 147. -/
def isQuote (c : Char) : Bool :=
  c.toNat == 0x22 || c.toNat == 0x27

/-- Line terminators, the characters NOT matched by an unescaped `.` in
a JavaScript regex without the `s` flag. -/
def isLineTerm (c : Char) : Bool :=
  c.toNat == 0x0a || c.toNat == 0x0d || c.toNat == 0x2028 || c.toNat == 0x2029

/-- Matching of the interpolated original filename inside the regex of
`build.js` line 147.  The filename is spliced into the regex source
verbatim, so each of its characters is matched literally except `.`,
which is a regex wildcard matching any non-line-terminator (faithful
for filenames made of letters, digits, hyphens, underscores and dots,
which have no other regex metacharacters).  Returns the rest of the
text after the consumed pattern, or `none`. -/
def matchPat : List Char → List Char → Option (List Char)
  | [], s => some s
  | _ :: _, [] => none
  | p :: ps, c :: cs =>
    if p = '.' then (if isLineTerm c then none else matchPat ps cs)
    else if p = c then matchPat ps cs else none

/-- Backtracking search for the greedy `[^"']*` of the regex
`src=["']([^"']*NAME)["']` (`build.js` line 147): `s` is the text after
the opening quote; try the longest possible non-quote prefix first and
shrink until the interpolated name pattern followed by a closing quote
matches, returning the length of that prefix. -/
def findPre (name : List Char) (s : List Char) : Option Nat :=
  let maxRun := (s.takeWhile (fun c => !(isQuote c))).length
  (List.range (maxRun + 1)).reverse.find? (fun p =>
    match matchPat name (s.drop p) with
    | some rest =>
      match rest.head? with
      | some q => isQuote q
      | none => false
    | none => false)

/-- Attempt to match the whole regex `src=["']([^"']*NAME)["']`
(`build.js` line 147) at the head of `l`, returning the length of the
matched text. -/
def tryMatchSrc (name : List Char) (l : List Char) : Option Nat :=
  match l with
  | 's' :: 'r' :: 'c' :: '=' :: q :: rest =>
    if isQuote q then
      match findPre name rest with
      | some p => some (5 + p + name.length + 1)
      | none => none
    else none
  | _ => none

/-- Scanner for `html.replace(scriptRegex, ...)` (`build.js` line 148)
with the global flag: at each position try the whole regex; on a match
emit the replacement text and resume after the matched portion of the
original string, otherwise emit the character and advance.  The `Nat`
fuel makes the recursion structural; a match is at least 6 characters
long, so fuel equal to the input length never runs out. -/
def rsAux (name repl : List Char) : Nat → List Char → List Char
  | 0, l => l
  | _ + 1, [] => []
  | fuel + 1, c :: rest =>
    match tryMatchSrc name (c :: rest) with
    | some len => repl ++ rsAux name repl fuel ((c :: rest).drop len)
    | none => c :: rsAux name repl fuel rest

/-- Embedding of one iteration of the `fileMapping.forEach` loop of
`build.js` lines 146-149: replace every match of
`src=["']([^"']*orig)["']` by `src="` ++ `obf` ++ `"`.  The replacement
string is spliced literally (faithful for obfuscated names, which are
hexadecimal and contain no `$`). -/
def replaceScriptSrc (orig obf l : List Char) : List Char :=
  rsAux orig ('s' :: 'r' :: 'c' :: '=' :: '"' :: (obf ++ ['"'])) l.length l

/-- Embedding of the whole `fileMapping.forEach` loop of `build.js`
lines 146-149: apply the rewrite once per mapping entry, in insertion
order (the iteration order of a JavaScript `Map`). -/
def updateSrcs (mapping : List (List Char × List Char)) (html : List Char) : List Char :=
  mapping.foldl (fun h kv => replaceScriptSrc kv.1 kv.2 h) html

/-- Embedding of Node's `path.extname` applied to a base filename: the
substring from the last dot on, or empty when there is no dot or the
only dot is the leading character of the name. -/
def extname (name : List Char) : List Char :=
  let tail := name.reverse.takeWhile (fun c => !(c == '.'))
  if tail.length = name.length then []
  else if name.length = tail.length + 1 then []
  else '.' :: tail.reverse

/-- Embedding of `path.extname(filePath).toLowerCase()` (`build.js`
line 93). -/
def extLower (name : List Char) : List Char :=
  (extname name).map Char.toLower

/-- The static configuration block of `build.js` lines 8-38, restricted
to the fields the file transformations read.  `allowedDomains` is
`none` for the JavaScript `null`. -/
structure Config where
  obfuscateFilenames : Bool
  minify : Bool
  allowedDomains : Option (List (List Char))
  exclude : List (List Char)

/-- One hexadecimal digit as produced by `JSON.stringify` escapes
(lowercase). -/
def hexDigit (n : Nat) : Char :=
  if n < 10 then Char.ofNat (0x30 + n) else Char.ofNat (0x57 + n)

/-- Escaping of one character inside a `JSON.stringify`'d string:
backslash and double quote are backslash-escaped, the control
characters with short forms use them, other control characters become
`\u00XX`. -/
def jsonEscapeChar (c : Char) : List Char :=
  if c = '"' then ['\\', '"']
  else if c = '\\' then ['\\', '\\']
  else if c.toNat = 0x08 then ['\\', 'b']
  else if c.toNat = 0x09 then ['\\', 't']
  else if c.toNat = 0x0a then ['\\', 'n']
  else if c.toNat = 0x0c then ['\\', 'f']
  else if c.toNat = 0x0d then ['\\', 'r']
  else if c.toNat < 0x20 then
    ['\\', 'u', '0', '0', hexDigit (c.toNat / 16), hexDigit (c.toNat % 16)]
  else [c]

/-- Embedding of `JSON.stringify` on a string. -/
def jsonString (s : List Char) : List Char :=
  '"' :: (s.map jsonEscapeChar).flatten ++ ['"']

/-- Embedding of `JSON.stringify(config.allowedDomains)` (`build.js`
line 72) on an array of strings. -/
def jsonStringArray (ds : List (List Char)) : List Char :=
  '[' :: (List.intercalate [','] (ds.map jsonString)) ++ [']']

/-- The template text of `build.js` lines 73-80 before the interpolated
domains array.  Braces are written `\x7b`/`\x7d` and apostrophes
`\x27`. -/
def guardPre : List Char :=
  String.toList "(function()\x7b\n    var a="

/-- The template text of `build.js` lines 73-80 after the interpolated
domains array. -/
def guardPost : List Char :=
  String.toList ";\n    var h=location.hostname;\n    if(location.protocol!==\x27file:\x27&&h!==\x27\x27&&h!==\x27localhost\x27&&!h.endsWith(\x27.pages.dev\x27)&&!a.some(function(d)\x7breturn h===d||h.endsWith(\x27.\x27+d);\x7d))\x7b\n      document.body.innerHTML=\x27<div style=\"text-align:center;margin-top:200px;font-size:20px;\">Unauthorized Access</div>\x27;\n      throw new Error(\x27Domain verification failed\x27);\n    \x7d\n  \x7d)();"

/-- The full guard snippet for a given domains array. -/
def guardText (ds : List (List Char)) : List Char :=
  guardPre ++ jsonStringArray ds ++ guardPost

/-- Embedding of `getAntiTamperCode` (`build.js` lines 67-81): empty
when `allowedDomains` is `null` or an empty array, otherwise the guard
snippet with the JSON-serialized domains array interpolated. -/
def getAntiTamperCode (cfg : Config) : List Char :=
  match cfg.allowedDomains with
  | none => []
  | some ds => if ds.length = 0 then [] else guardText ds

/-- Result of processing one file: output base name, output bytes, and
whether a minification-failure warning was logged. -/
structure FileResult where
  outName : List Char
  content : List Char
  warned : Bool

/-- Embedding of the `.js` branch of `processFile` (`build.js` lines
97-138).  `jsMin` is the `terser` oracle; `genName` stands for the
`generateObfuscatedName(fileName)` value (an MD5 of the name
concatenated with the wall-clock time, not embeddable, so supplied as
an input).  On a minifier exception the original code is kept and a
warning logged; the anti-tamper snippet, when nonempty, is prepended
afterwards; with obfuscation on, the output keeps the generated name. -/
def processJs (cfg : Config) (jsMin : List Char → Except Unit (List Char))
    (genName fileName code : List Char) : FileResult :=
  let st :=
    if cfg.minify then
      match jsMin code with
      | Except.ok c => (c, false)
      | Except.error _ => (code, true)
    else (code, false)
  let antiTamper := getAntiTamperCode cfg
  let outputCode := if antiTamper.isEmpty then st.1 else antiTamper ++ st.1
  let outputFileName := if cfg.obfuscateFilenames then genName else fileName
  ⟨outputFileName, outputCode, st.2⟩

/-- Embedding of the `.html`/`.htm` branch of `processFile` (`build.js`
lines 141-166).  With obfuscation on, the script-src rewrite runs first
over every mapping entry; then, with minification on, the
`html-minifier-terser` oracle runs, and on an exception the text from
just before the minification attempt is kept and a warning logged. -/
def processHtml (cfg : Config) (htmlMin : List Char → Except Unit (List Char))
    (mapping : List (List Char × List Char)) (html : List Char) : List Char × Bool :=
  let html1 := if cfg.obfuscateFilenames then updateSrcs mapping html else html
  if cfg.minify then
    match htmlMin html1 with
    | Except.ok h => (h, false)
    | Except.error _ => (html1, true)
  else (html1, false)

/-- Embedding of `fileMapping.set(fileName, outputFileName)` (`build.js`
line 133) on the insertion-ordered association list that models a
JavaScript `Map`: an existing key keeps its position and gets the new
value, a new key is appended. -/
def mapSet (m : List (List Char × List Char)) (k v : List Char) :
    List (List Char × List Char) :=
  if m.any (fun p => p.1 == k) then
    m.map (fun p => if p.1 == k then (k, v) else p)
  else m ++ [(k, v)]

/-- Embedding of `processFile` (`build.js` lines 84-185), dispatching on
the lower-cased extension of the base filename: `.js` is minified /
guarded / renamed, `.html`/`.htm` is src-rewritten / minified, `.css`
is regex-minified when minification is on, everything else is copied
byte for byte.  Returns the written file and the updated filename
mapping. -/
def processFile (cfg : Config)
    (jsMin htmlMin : List Char → Except Unit (List Char))
    (genName : List Char) (mapping : List (List Char × List Char))
    (fileName content : List Char) : FileResult × List (List Char × List Char) :=
  let ext := extLower fileName
  if ext = String.toList ".js" then
    let r := processJs cfg jsMin genName fileName content
    let mapping1 := if cfg.obfuscateFilenames then mapSet mapping fileName genName else mapping
    (r, mapping1)
  else if ext = String.toList ".html" ∨ ext = String.toList ".htm" then
    let r := processHtml cfg htmlMin mapping content
    (⟨fileName, r.1, r.2⟩, mapping)
  else if ext = String.toList ".css" ∧ cfg.minify then
    (⟨fileName, cssMinify content, false⟩, mapping)
  else
    (⟨fileName, content, false⟩, mapping)

/-- One input file of a build run: directory part of the relative path,
base name, content, and the oracle value standing for the
`generateObfuscatedName` result for this file. -/
structure InFile where
  dir : List Char
  name : List Char
  content : List Char
  gen : List Char

/-- Output written for one input file: the directory is taken from the
input's relative path, the base name may be the obfuscated one. -/
structure OutFile where
  outDir : List Char
  outName : List Char
  content : List Char
  warned : Bool

/-- Embedding of the traversal's sequential `processFile` calls
(`build.js` lines 188-207): files are processed one at a time in
order, threading the filename mapping (`fileMapping`, line 48), which
starts empty at the beginning of a run. -/
def processSeq (cfg : Config) (jsMin htmlMin : List Char → Except Unit (List Char)) :
    List (List Char × List Char) → List InFile → List OutFile
  | _, [] => []
  | mapping, f :: fs =>
    let r := processFile cfg jsMin htmlMin f.gen mapping f.name f.content
    ⟨f.dir, r.1.outName, r.1.content, r.1.warned⟩ :: processSeq cfg jsMin htmlMin r.2 fs

mutual

/-- A filesystem tree: file with content, or directory with an ordered
entry list (mutually inductive so that all recursions are structural). -/
inductive FSTree where
  | file (content : List Char)
  | dir (entries : EntryList)

/-- Ordered list of named entries of a directory. -/
inductive EntryList where
  | nil
  | cons (name : List Char) (child : FSTree) (rest : EntryList)

end

deriving instance DecidableEq for FSTree

deriving instance DecidableEq for EntryList

mutual

/-- Embedding of the inner `copyDir` of `copyDataDirectory` (`build.js`
lines 221-242) on a directory tree: the destination directory is
created unconditionally, every subdirectory is recursed into, and a
file is copied exactly when its lower-cased extension is `.json`. -/
def copyTree : FSTree → FSTree
  | .file c => .file c
  | .dir es => .dir (copyEntries es)

/-- Entry-list part of `copyDir`: order-preserving, directories kept
unconditionally (and recursively filtered), files kept exactly when
their lower-cased extension is `.json`. -/
def copyEntries : EntryList → EntryList
  | .nil => .nil
  | .cons n (.dir es) rest => .cons n (.dir (copyEntries es)) (copyEntries rest)
  | .cons n (.file c) rest =>
    if extLower n = String.toList ".json" then .cons n (.file c) (copyEntries rest)
    else copyEntries rest

end

/-- Embedding of `copyDataDirectory` (`build.js` lines 210-245): `none`
models a missing `data/llm` source directory, in which case a skip
message is logged (the returned flag) and nothing is copied; otherwise
the directory is mirrored through `copyDir`. -/
def copyDataDirectory : Option EntryList → Option EntryList × Bool
  | none => (none, true)
  | some es => (some (copyEntries es), false)

/-- First entry with the given name, as a filesystem lookup resolves a
path component. -/
def findEntry : EntryList → List Char → Option FSTree
  | .nil, _ => none
  | .cons n t rest, name => if n = name then some t else findEntry rest name

/-- Resolve a path (list of components) in a tree. -/
def lookupPath : FSTree → List (List Char) → Option FSTree
  | t, [] => some t
  | .file _, _ :: _ => none
  | .dir es, n :: ps =>
    match findEntry es n with
    | some t => lookupPath t ps
    | none => none

/-- Names of the entries of a directory, in order. -/
def namesOf : EntryList → List (List Char)
  | .nil => []
  | .cons n _ rest => n :: namesOf rest

mutual

/-- Well-formed tree: every directory has pairwise distinct entry
names (as on a real filesystem). -/
def wfTree : FSTree → Bool
  | .file _ => true
  | .dir es => decide (namesOf es).Nodup && wfEntries es

/-- Well-formedness of every child of an entry list. -/
def wfEntries : EntryList → Bool
  | .nil => true
  | .cons _ t rest => wfTree t && wfEntries rest

end

/-- Embedding of `shouldExclude` (`build.js` lines 51-58).  A
filesystem entry is modelled by the list of path components of its
path relative to the source root (the code computes
`path.relative(config.inputDir, filePath)`); its base name is the last
component and the relative path string joins the components with the
POSIX separator `/`. -/
def relPathOf (comps : List (List Char)) : List Char :=
  List.intercalate ['/'] comps

/-- Base name of a filesystem entry, `path.basename(filePath)`: the
last path component (empty for the empty path). -/
def baseOf (comps : List (List Char)) : List Char :=
  comps.getLastD []

/-- Embedding of `shouldExclude` (`build.js` lines 51-58): some
exclusion entry equals the relative path, or prefixes it followed by
the path separator, or equals the base name. -/
def shouldExclude (exclude : List (List Char)) (comps : List (List Char)) : Bool :=
  exclude.any (fun excluded =>
    relPathOf comps == excluded ||
    (excluded ++ ['/']).isPrefixOf (relPathOf comps) ||
    baseOf comps == excluded)

/-- A configuration with the domain allow-list removed, used to state
what a JavaScript output would be without guard injection. -/
def noDomains (cfg : Config) : Config :=
  ⟨cfg.obfuscateFilenames, cfg.minify, none, cfg.exclude⟩

theorem guardText_ne_nil (ds : List (List Char)) : guardText ds ≠ [] := by
  intro h
  have h1 : guardPre = [] := (List.append_eq_nil.mp (List.append_eq_nil.mp h).1).1
  exact absurd h1 (by decide)

theorem processJs_content (cfg : Config) (jsMin : List Char → Except Unit (List Char))
    (genName fileName code : List Char) :
    (processJs cfg jsMin genName fileName code).content
      = getAntiTamperCode cfg ++ (processJs (noDomains cfg) jsMin genName fileName code).content := by
  have hnone : getAntiTamperCode (noDomains cfg) = [] := rfl
  have hmin : (noDomains cfg).minify = cfg.minify := rfl
  simp only [processJs, hnone, hmin, List.isEmpty_nil, if_true]
  cases hat : getAntiTamperCode cfg with
  | nil => simp
  | cons a as => simp

/-- Claim C5: when minification is enabled and the JavaScript minifier
throws on a file, a warning is logged, the original unmodified source
text is the output content for that file (up to the domain-guard
prefix, which is independent of minification), and the run processes
every file (one output per input, no abort). -/
theorem C5_js_minify_failure (cfg : Config)
    (jsMin htmlMin : List Char → Except Unit (List Char))
    (genName fileName code : List Char)
    (hmin : cfg.minify = true) (hfail : jsMin code = Except.error ()) :
    (processJs cfg jsMin genName fileName code).warned = true ∧
    (processJs cfg jsMin genName fileName code).content = getAntiTamperCode cfg ++ code ∧
    (∀ (mapping : List (List Char × List Char)) (files : List InFile),
      (processSeq cfg jsMin htmlMin mapping files).length = files.length) := by
  refine ⟨?_, ?_, ?_⟩
  · simp [processJs, hmin, hfail]
  · rw [processJs_content]
    have : (processJs (noDomains cfg) jsMin genName fileName code).content = code := by
      simp [processJs, noDomains, hmin, hfail, getAntiTamperCode]
    rw [this]
  · intro mapping files
    induction files generalizing mapping with
    | nil => rfl
    | cons f fs ih => simp [processSeq, ih]

/-- Witness for C5 at a concrete configuration, minifier and file. -/
theorem C5_js_minify_failure_witness :
    (processJs ⟨false, true, none, []⟩ (fun _ => Except.error ())
        (String.toList "deadbeef.js") (String.toList "app.js") (String.toList "var x = 1;")).warned
      = true ∧
    (processJs ⟨false, true, none, []⟩ (fun _ => Except.error ())
        (String.toList "deadbeef.js") (String.toList "app.js") (String.toList "var x = 1;")).content
      = getAntiTamperCode ⟨false, true, none, []⟩ ++ String.toList "var x = 1;" ∧
    (∀ (mapping : List (List Char × List Char)) (files : List InFile),
      (processSeq ⟨false, true, none, []⟩ (fun _ => Except.error ()) (fun l => Except.ok l)
          mapping files).length = files.length) :=
  C5_js_minify_failure ⟨false, true, none, []⟩ (fun _ => Except.error ()) (fun l => Except.ok l)
    (String.toList "deadbeef.js") (String.toList "app.js") (String.toList "var x = 1;")
    rfl rfl

/-- Claim C6: with a nonempty allow-list configured, every JavaScript
output's content is exactly the guard snippet followed by what the
content would have been without domain protection (whatever the
minification outcome, since the minifier oracle is arbitrary here);
with the list absent or empty, the content is exactly that unguarded
content. -/
theorem C6_domain_guard (cfg : Config) (jsMin : List Char → Except Unit (List Char))
    (genName fileName code : List Char) :
    (∀ ds, cfg.allowedDomains = some ds → ds ≠ [] →
      (processJs cfg jsMin genName fileName code).content
        = guardText ds ++ (processJs (noDomains cfg) jsMin genName fileName code).content) ∧
    (cfg.allowedDomains = none ∨ cfg.allowedDomains = some [] →
      (processJs cfg jsMin genName fileName code).content
        = (processJs (noDomains cfg) jsMin genName fileName code).content) := by
  constructor
  · intro ds hds hne
    rw [processJs_content]
    have : getAntiTamperCode cfg = guardText ds := by
      simp [getAntiTamperCode, hds, List.length_eq_zero, hne]
    rw [this]
  · intro h
    rw [processJs_content]
    have : getAntiTamperCode cfg = [] := by
      rcases h with h | h <;> simp [getAntiTamperCode, h]
    rw [this]
    rfl

/-- Witness for C6 at a concrete configuration in both branches. -/
theorem C6_domain_guard_witness :
    (processJs ⟨false, false, some [String.toList "example.com"], []⟩ (fun l => Except.ok l)
        [] (String.toList "a.js") (String.toList "x()")).content
      = guardText [String.toList "example.com"]
          ++ (processJs (noDomains ⟨false, false, some [String.toList "example.com"], []⟩)
              (fun l => Except.ok l) [] (String.toList "a.js") (String.toList "x()")).content ∧
    (processJs ⟨false, false, none, []⟩ (fun l => Except.ok l)
        [] (String.toList "a.js") (String.toList "x()")).content
      = (processJs (noDomains ⟨false, false, none, []⟩)
          (fun l => Except.ok l) [] (String.toList "a.js") (String.toList "x()")).content :=
  ⟨(C6_domain_guard ⟨false, false, some [String.toList "example.com"], []⟩
      (fun l => Except.ok l) [] (String.toList "a.js") (String.toList "x()")).1
      [String.toList "example.com"] rfl (by decide),
   (C6_domain_guard ⟨false, false, none, []⟩
      (fun l => Except.ok l) [] (String.toList "a.js") (String.toList "x()")).2
      (Or.inl rfl)⟩

/-- Claim C7: the exclusion filter accepts exactly the entries whose
relative path equals an exclusion entry, or starts with an exclusion
entry followed by the path separator, or whose base name equals an
exclusion entry; nothing else is excluded. -/
theorem C7_shouldExclude_iff (exclude : List (List Char)) (comps : List (List Char)) :
    shouldExclude exclude comps = true ↔
      ∃ e ∈ exclude, relPathOf comps = e ∨
        (e ++ ['/']) <+: relPathOf comps ∨ baseOf comps = e := by
  simp only [shouldExclude, List.any_eq_true, Bool.or_eq_true, beq_iff_eq,
    List.isPrefixOf_iff_prefix, or_assoc]

/-- Claim C2 as stated is false: with filename obfuscation enabled the
script-src rewrite runs before the minification attempt, so when the
minifier throws, the kept text is the rewritten text, not the bytes
read from the source file. -/
theorem C2_counterexample :
    ¬ ((processHtml ⟨true, true, none, []⟩ (fun _ => Except.error ())
          [(String.toList "app.js", String.toList "abc12345.js")]
          (String.toList "<script src=\"app.js\"></script>")).1
        = String.toList "<script src=\"app.js\"></script>") := by
  decide

/-- Claim C2 amended: when minification is enabled and the HTML
minifier throws on a file, a warning is logged and the text from just
before the minification attempt is written: the source text when
filename obfuscation is disabled, the src-rewritten text when it is
enabled. -/
theorem C2_html_minify_failure (cfg : Config)
    (htmlMin : List Char → Except Unit (List Char))
    (mapping : List (List Char × List Char)) (html : List Char)
    (hmin : cfg.minify = true)
    (hfail : htmlMin (if cfg.obfuscateFilenames then updateSrcs mapping html else html)
      = Except.error ()) :
    (processHtml cfg htmlMin mapping html).2 = true ∧
    (processHtml cfg htmlMin mapping html).1
      = (if cfg.obfuscateFilenames then updateSrcs mapping html else html) ∧
    (cfg.obfuscateFilenames = false → (processHtml cfg htmlMin mapping html).1 = html) := by
  refine ⟨?_, ?_, ?_⟩
  · simp [processHtml, hmin, hfail]
  · simp [processHtml, hmin, hfail]
  · intro hobf
    simp [processHtml, hmin, hobf] at hfail ⊢
    simp [hfail]

/-- Witness for C2 at a concrete configuration and failing minifier. -/
theorem C2_html_minify_failure_witness :
    (processHtml ⟨false, true, none, []⟩ (fun _ => Except.error ())
        [] (String.toList "<p>hello</p>")).2 = true ∧
    (processHtml ⟨false, true, none, []⟩ (fun _ => Except.error ())
        [] (String.toList "<p>hello</p>")).1
      = (if (false : Bool) then updateSrcs [] (String.toList "<p>hello</p>")
          else String.toList "<p>hello</p>") ∧
    ((false : Bool) = false → (processHtml ⟨false, true, none, []⟩ (fun _ => Except.error ())
        [] (String.toList "<p>hello</p>")).1 = String.toList "<p>hello</p>") :=
  C2_html_minify_failure ⟨false, true, none, []⟩ (fun _ => Except.error ())
    [] (String.toList "<p>hello</p>") rfl rfl

/-- Claim C3 as stated is false: with minification disabled but
filename obfuscation enabled, an HTML file referencing an
already-mapped script is rewritten, so its output bytes differ from
its input bytes even though it is not a `.js` file.  The run processes
`app.js` (mapped to `deadbeef.js`) and then `index.html`. -/
theorem C3_counterexample :
    ¬ (((processSeq ⟨true, false, none, []⟩ (fun _ => Except.error ()) (fun _ => Except.error ()) []
          [⟨[], String.toList "app.js", String.toList "var x = 1;", String.toList "deadbeef.js"⟩,
           ⟨[], String.toList "index.html",
             String.toList "<script src=\"app.js\"></script>", String.toList "g"⟩]).getD 1
          ⟨[], [], [], false⟩).content
        = String.toList "<script src=\"app.js\"></script>") := by
  decide

/-- Claim C3 amended: when minification is disabled and filename
obfuscation is disabled, the bytes written for any input file equal
the input bytes, except that a `.js` output gets the domain-guard
snippet prepended (empty unless a nonempty allow-list is configured). -/
theorem C3_minify_disabled_preserves_bytes (cfg : Config)
    (jsMin htmlMin : List Char → Except Unit (List Char))
    (genName : List Char) (mapping : List (List Char × List Char))
    (fileName content : List Char)
    (hmin : cfg.minify = false) (hobf : cfg.obfuscateFilenames = false) :
    ((processFile cfg jsMin htmlMin genName mapping fileName content).1).content
      = (if extLower fileName = String.toList ".js"
          then getAntiTamperCode cfg ++ content else content) := by
  by_cases hjs : extLower fileName = ['.', 'j', 's']
  · have hc : (processJs cfg jsMin genName fileName content).content
        = getAntiTamperCode cfg ++ content := by
      rw [processJs_content]
      have : (processJs (noDomains cfg) jsMin genName fileName content).content = content := by
        simp [processJs, noDomains, hmin, getAntiTamperCode]
      rw [this]
    simp [processFile, hjs, hc]
  · by_cases hh : extLower fileName = ['.', 'h', 't', 'm', 'l']
        ∨ extLower fileName = ['.', 'h', 't', 'm']
    · simp [processFile, hjs, hh, processHtml, hmin, hobf]
    · simp [processFile, hjs, hh, hmin]

/-- Witness for C3 (amended) on a concrete CSS file with minification
and obfuscation disabled. -/
theorem C3_minify_disabled_preserves_bytes_witness :
    ((processFile ⟨false, false, none, []⟩ (fun l => Except.ok l) (fun l => Except.ok l)
        [] [] (String.toList "style.css") (String.toList "a  \x7b color : red \x7d")).1).content
      = (if extLower (String.toList "style.css") = String.toList ".js"
          then getAntiTamperCode ⟨false, false, none, []⟩
            ++ String.toList "a  \x7b color : red \x7d"
          else String.toList "a  \x7b color : red \x7d") :=
  C3_minify_disabled_preserves_bytes ⟨false, false, none, []⟩
    (fun l => Except.ok l) (fun l => Except.ok l) [] []
    (String.toList "style.css") (String.toList "a  \x7b color : red \x7d") rfl rfl

/-- Claim C9: the filename mapping is keyed by base filename only.  Two
`.js` files with the same base name from different directories are
processed in order; the run records `g1` then overwrites it with `g2`
in place, and an HTML file processed afterwards is rewritten with the
one-entry mapping holding only the later name `g2`. -/
theorem C9_mapping_keyed_by_basename (cfg : Config)
    (jsMin htmlMin : List Char → Except Unit (List Char))
    (dir1 dir2 dirh name c1 c2 g1 g2 hname html gh : List Char)
    (hobf : cfg.obfuscateFilenames = true)
    (hjs : extLower name = String.toList ".js")
    (hhtml : extLower hname = String.toList ".html") :
    processSeq cfg jsMin htmlMin []
        [⟨dir1, name, c1, g1⟩, ⟨dir2, name, c2, g2⟩, ⟨dirh, hname, html, gh⟩]
      = [⟨dir1, g1, (processJs cfg jsMin g1 name c1).content,
            (processJs cfg jsMin g1 name c1).warned⟩,
         ⟨dir2, g2, (processJs cfg jsMin g2 name c2).content,
            (processJs cfg jsMin g2 name c2).warned⟩,
         ⟨dirh, hname, (processHtml cfg htmlMin [(name, g2)] html).1,
            (processHtml cfg htmlMin [(name, g2)] html).2⟩] := by
  have hne : ¬ (String.toList ".html" = String.toList ".js") := by decide
  simp only [processSeq, processFile, hjs, hhtml, hobf, if_true, if_pos rfl]
  simp [mapSet, processJs, hobf, hne]

/-- Witness for C9 at concrete directories, names and contents. -/
theorem C9_mapping_keyed_by_basename_witness :
    processSeq ⟨true, false, none, []⟩ (fun l => Except.ok l) (fun l => Except.ok l) []
        [⟨String.toList "a", String.toList "game.js", String.toList "one",
            String.toList "11111111.js"⟩,
         ⟨String.toList "b", String.toList "game.js", String.toList "two",
            String.toList "22222222.js"⟩,
         ⟨[], String.toList "index.html",
            String.toList "<script src=\"game.js\"></script>", String.toList "g"⟩]
      = [⟨String.toList "a", String.toList "11111111.js",
            (processJs ⟨true, false, none, []⟩ (fun l => Except.ok l)
              (String.toList "11111111.js") (String.toList "game.js")
              (String.toList "one")).content,
            (processJs ⟨true, false, none, []⟩ (fun l => Except.ok l)
              (String.toList "11111111.js") (String.toList "game.js")
              (String.toList "one")).warned⟩,
         ⟨String.toList "b", String.toList "22222222.js",
            (processJs ⟨true, false, none, []⟩ (fun l => Except.ok l)
              (String.toList "22222222.js") (String.toList "game.js")
              (String.toList "two")).content,
            (processJs ⟨true, false, none, []⟩ (fun l => Except.ok l)
              (String.toList "22222222.js") (String.toList "game.js")
              (String.toList "two")).warned⟩,
         ⟨[], String.toList "index.html",
            (processHtml ⟨true, false, none, []⟩ (fun l => Except.ok l)
              [(String.toList "game.js", String.toList "22222222.js")]
              (String.toList "<script src=\"game.js\"></script>")).1,
            (processHtml ⟨true, false, none, []⟩ (fun l => Except.ok l)
              [(String.toList "game.js", String.toList "22222222.js")]
              (String.toList "<script src=\"game.js\"></script>")).2⟩] :=
  C9_mapping_keyed_by_basename ⟨true, false, none, []⟩ (fun l => Except.ok l)
    (fun l => Except.ok l) (String.toList "a") (String.toList "b") []
    (String.toList "game.js") (String.toList "one") (String.toList "two")
    (String.toList "11111111.js") (String.toList "22222222.js")
    (String.toList "index.html") (String.toList "<script src=\"game.js\"></script>")
    (String.toList "g") rfl (by decide) (by decide)

/-- Claim C1 as stated is false: the rewrite does not preserve the part
of the attribute value before the original filename.  With the mapping
app.js to abc12345.js, the value `js/app.js` becomes `abc12345.js`,
not `js/abc12345.js`. -/
theorem C1_counterexample :
    updateSrcs [(String.toList "app.js", String.toList "abc12345.js")]
        (String.toList "<script src=\"js/app.js\"></script>")
      = String.toList "<script src=\"abc12345.js\"></script>" ∧
    ¬ (updateSrcs [(String.toList "app.js", String.toList "abc12345.js")]
        (String.toList "<script src=\"js/app.js\"></script>")
      = String.toList "<script src=\"js/abc12345.js\"></script>") := by
  constructor
  · decide
  · decide

/-- Gap decomposition of one global-replace scan: the literal text
between (and around) the match sites of `rsAux`, independent of the
replacement string.  `rsAux` then equals the gaps joined with the
replacement. -/
def rsGaps (name : List Char) : Nat → List Char → List (List Char)
  | 0, l => [l]
  | _ + 1, [] => [[]]
  | fuel + 1, c :: rest =>
    match tryMatchSrc name (c :: rest) with
    | some len => [] :: rsGaps name fuel ((c :: rest).drop len)
    | none =>
      match rsGaps name fuel rest with
      | [] => [[c]]
      | g :: gs => (c :: g) :: gs

/-- Interleave a replacement string between consecutive gaps. -/
def joinWith (r : List Char) : List (List Char) → List Char
  | [] => []
  | [g] => g
  | g :: gs => g ++ r ++ joinWith r gs

theorem rsGaps_ne_nil (name : List Char) (fuel : Nat) (l : List Char) :
    rsGaps name fuel l ≠ [] := by
  match fuel, l with
  | 0, l => simp [rsGaps]
  | _ + 1, [] => simp [rsGaps]
  | fuel + 1, c :: rest =>
    rw [rsGaps]
    cases tryMatchSrc name (c :: rest) with
    | some len => simp
    | none =>
      cases rsGaps name fuel rest with
      | nil => simp
      | cons g gs => simp

theorem rsAux_eq_joinWith (name repl : List Char) (fuel : Nat) (l : List Char) :
    rsAux name repl fuel l = joinWith repl (rsGaps name fuel l) := by
  induction fuel generalizing l with
  | zero => simp [rsAux, rsGaps, joinWith]
  | succ fuel ih =>
    cases l with
    | nil => simp [rsAux, rsGaps, joinWith]
    | cons c rest =>
      rw [rsAux, rsGaps]
      cases htry : tryMatchSrc name (c :: rest) with
      | some len =>
        simp only []
        rw [ih]
        cases hg : rsGaps name fuel ((c :: rest).drop len) with
        | nil => exact absurd hg (rsGaps_ne_nil name fuel _)
        | cons g gs => simp [joinWith]
      | none =>
        simp only []
        rw [ih]
        cases hg : rsGaps name fuel rest with
        | nil => exact absurd hg (rsGaps_ne_nil name fuel rest)
        | cons g gs =>
          cases gs with
          | nil => simp [joinWith]
          | cons g2 gs2 => simp [joinWith]

/-- Claim C1 amended: with obfuscation enabled, a script src attribute
whose value ends in a mapped original filename has its whole value
replaced by the mapped obfuscated filename in double quotes: the part
of the value before the original filename (here `js/` and `deep/`) is
dropped, not preserved, and every recorded mapping is applied in turn
(here app.js with a concrete obfuscated name and lib.js with an
arbitrary one). -/
theorem C1_src_rewrite_drops_value_prefix (obf : List Char) :
    updateSrcs [(String.toList "app.js", String.toList "aaaa1111.js"),
                (String.toList "lib.js", obf)]
        (String.toList
          "<script src=\"js/app.js\"></script><script src='deep/lib.js'></script>")
      = String.toList "<script src=\"aaaa1111.js\"></script><script src=\"" ++ obf
          ++ String.toList "\"></script>" := by
  have h1 : replaceScriptSrc (String.toList "app.js") (String.toList "aaaa1111.js")
      (String.toList
        "<script src=\"js/app.js\"></script><script src='deep/lib.js'></script>")
    = String.toList
        "<script src=\"aaaa1111.js\"></script><script src='deep/lib.js'></script>" := by
    decide
  show replaceScriptSrc (String.toList "lib.js") obf
      (replaceScriptSrc (String.toList "app.js") (String.toList "aaaa1111.js")
        (String.toList
          "<script src=\"js/app.js\"></script><script src='deep/lib.js'></script>")) = _
  rw [h1]
  rw [replaceScriptSrc, rsAux_eq_joinWith]
  have h2 : rsGaps (String.toList "lib.js")
      (String.toList
        "<script src=\"aaaa1111.js\"></script><script src='deep/lib.js'></script>").length
      (String.toList
        "<script src=\"aaaa1111.js\"></script><script src='deep/lib.js'></script>")
    = [String.toList "<script src=\"aaaa1111.js\"></script><script ",
       String.toList "></script>"] := by
    decide
  rw [h2]
  show String.toList "<script src=\"aaaa1111.js\"></script><script "
      ++ ('s' :: 'r' :: 'c' :: '=' :: '"' :: (obf ++ ['"']))
      ++ String.toList "></script>" = _
  have e1 : String.toList "<script src=\"aaaa1111.js\"></script><script src=\""
      = String.toList "<script src=\"aaaa1111.js\"></script><script "
          ++ ['s', 'r', 'c', '=', '"'] := by decide
  have e2 : String.toList "\"></script>" = '"' :: String.toList "></script>" := by decide
  rw [e1, e2]
  simp

theorem findEntry_none_not_mem : ∀ (es : EntryList) (n : List Char),
    findEntry es n = none → ¬ n ∈ namesOf es
  | .nil, n, _ => by simp [namesOf]
  | .cons m t rest, n, h => by
    rw [findEntry] at h
    by_cases hmn : m = n
    · rw [if_pos hmn] at h
      exact Option.noConfusion h
    · rw [if_neg hmn] at h
      simp only [namesOf, List.mem_cons, not_or]
      exact ⟨fun e => hmn e.symm, findEntry_none_not_mem rest n h⟩

theorem findEntry_copy_not_mem : ∀ (es : EntryList) (n : List Char),
    ¬ n ∈ namesOf es → findEntry (copyEntries es) n = none
  | .nil, _, _ => rfl
  | .cons m t rest, n, h => by
    have hmn : ¬ m = n := by
      simp only [namesOf, List.mem_cons, not_or] at h
      exact fun e => h.1 e.symm
    have hrest : ¬ n ∈ namesOf rest := by
      simp only [namesOf, List.mem_cons, not_or] at h
      exact h.2
    cases t with
    | file c =>
      simp only [copyEntries]
      by_cases hj : extLower m = String.toList ".json"
      · rw [if_pos hj, findEntry, if_neg hmn]
        exact findEntry_copy_not_mem rest n hrest
      · rw [if_neg hj]
        exact findEntry_copy_not_mem rest n hrest
    | dir s =>
      simp only [copyEntries]
      rw [findEntry, if_neg hmn]
      exact findEntry_copy_not_mem rest n hrest

theorem wfTree_dir_nodup {es : EntryList} (h : wfTree (.dir es) = true) :
    (namesOf es).Nodup ∧ wfEntries es = true := by
  rw [wfTree] at h
  simp only [Bool.and_eq_true, decide_eq_true_eq] at h
  exact h

theorem wf_findEntry : ∀ (es : EntryList) (n : List Char) (t : FSTree),
    wfEntries es = true → findEntry es n = some t → wfTree t = true
  | .nil, n, t, _, h => by simp [findEntry] at h
  | .cons m c rest, n, t, hwf, h => by
    simp only [wfEntries, Bool.and_eq_true] at hwf
    rw [findEntry] at h
    by_cases hmn : m = n
    · rw [if_pos hmn] at h
      injection h with h1
      rw [← h1]
      exact hwf.1
    · rw [if_neg hmn] at h
      exact wf_findEntry rest n t hwf.2 h

theorem findEntry_copy_file : ∀ (es : EntryList) (n c : List Char),
    (namesOf es).Nodup → findEntry es n = some (.file c) →
    findEntry (copyEntries es) n
      = (if extLower n = String.toList ".json" then some (.file c) else none)
  | .nil, n, c, _, h => by simp [findEntry] at h
  | .cons m t rest, n, c, hnd, h => by
    simp only [namesOf, List.nodup_cons] at hnd
    rw [findEntry] at h
    by_cases hmn : m = n
    · rw [if_pos hmn] at h
      injection h with h1
      subst h1
      subst hmn
      simp only [copyEntries]
      by_cases hj : extLower m = String.toList ".json"
      · rw [if_pos hj, findEntry, if_pos rfl, if_pos hj]
      · rw [if_neg hj, findEntry_copy_not_mem rest m hnd.1, if_neg hj]
    · rw [if_neg hmn] at h
      cases t with
      | file c2 =>
        simp only [copyEntries]
        by_cases hj : extLower m = String.toList ".json"
        · rw [if_pos hj, findEntry, if_neg hmn]
          exact findEntry_copy_file rest n c hnd.2 h
        · rw [if_neg hj]
          exact findEntry_copy_file rest n c hnd.2 h
      | dir s =>
        simp only [copyEntries]
        rw [findEntry, if_neg hmn]
        exact findEntry_copy_file rest n c hnd.2 h

theorem findEntry_copy_dir : ∀ (es : EntryList) (n : List Char) (s : EntryList),
    (namesOf es).Nodup → findEntry es n = some (.dir s) →
    findEntry (copyEntries es) n = some (.dir (copyEntries s))
  | .nil, n, s, _, h => by simp [findEntry] at h
  | .cons m t rest, n, s, hnd, h => by
    simp only [namesOf, List.nodup_cons] at hnd
    rw [findEntry] at h
    by_cases hmn : m = n
    · rw [if_pos hmn] at h
      injection h with h1
      subst h1
      subst hmn
      simp only [copyEntries]
      rw [findEntry, if_pos rfl]
    · rw [if_neg hmn] at h
      cases t with
      | file c2 =>
        simp only [copyEntries]
        by_cases hj : extLower m = String.toList ".json"
        · rw [if_pos hj, findEntry, if_neg hmn]
          exact findEntry_copy_dir rest n s hnd.2 h
        · rw [if_neg hj]
          exact findEntry_copy_dir rest n s hnd.2 h
      | dir s2 =>
        simp only [copyEntries]
        rw [findEntry, if_neg hmn]
        exact findEntry_copy_dir rest n s hnd.2 h

theorem findEntry_copy_none2 (es : EntryList) (n : List Char)
    (h : findEntry es n = none) : findEntry (copyEntries es) n = none :=
  findEntry_copy_not_mem es n (findEntry_none_not_mem es n h)

theorem baseOf_cons_cons (n q : List Char) (qs : List (List Char)) :
    baseOf (n :: q :: qs) = baseOf (q :: qs) := by
  simp [baseOf, List.getLastD_cons]

theorem lookupPath_copy_file : ∀ (p : List (List Char)) (es : EntryList) (c : List Char),
    wfTree (.dir es) = true →
    (lookupPath (.dir (copyEntries es)) p = some (.file c) ↔
      lookupPath (.dir es) p = some (.file c) ∧
        extLower (baseOf p) = String.toList ".json")
  | [], es, c, _ => by simp [lookupPath]
  | n :: ps, es, c, hwf => by
    obtain ⟨hnd, hwfe⟩ := wfTree_dir_nodup hwf
    simp only [lookupPath]
    cases hfe : findEntry es n with
    | none =>
      rw [findEntry_copy_none2 es n hfe]
      simp
    | some t =>
      cases t with
      | file c2 =>
        rw [findEntry_copy_file es n c2 hnd hfe]
        by_cases hj : extLower n = String.toList ".json"
        · rw [if_pos hj]
          cases ps with
          | nil => simp [lookupPath, baseOf, hj]
          | cons q qs => simp [lookupPath]
        · rw [if_neg hj]
          cases ps with
          | nil =>
            simp [lookupPath, baseOf]
            exact fun _ => by simpa using hj
          | cons q qs => simp [lookupPath]
      | dir s =>
        rw [findEntry_copy_dir es n s hnd hfe]
        cases ps with
        | nil => simp [lookupPath]
        | cons q qs =>
          rw [baseOf_cons_cons]
          exact lookupPath_copy_file (q :: qs) s c (wf_findEntry es n (.dir s) hwfe hfe)

/-- Claim C8: the data stager mirrors the `data/llm` tree, copying
exactly the files whose lower-cased extension is `.json` (at any
depth, recursing into every subdirectory, with no exclusion list in
play), and a missing source directory is reported by a logged skip and
an empty result rather than an error. -/
theorem C8_data_stager (es : EntryList) (p : List (List Char)) (c : List Char)
    (hwf : wfTree (.dir es) = true) :
    copyDataDirectory (some es) = (some (copyEntries es), false) ∧
    copyDataDirectory none = (none, true) ∧
    (lookupPath (.dir (copyEntries es)) p = some (.file c) ↔
      lookupPath (.dir es) p = some (.file c) ∧
        extLower (baseOf p) = String.toList ".json") :=
  ⟨rfl, rfl, lookupPath_copy_file p es c hwf⟩

/-- Witness for C8 on the spec's own example: `data/llm` holding
`x.json` and `x.pdf`; the lookup equivalence is instantiated at both
names, showing `x.json` kept and `x.pdf` absent. -/
theorem C8_data_stager_witness :
    (copyDataDirectory (some (.cons (String.toList "x.json") (.file (String.toList "A"))
        (.cons (String.toList "x.pdf") (.file (String.toList "B")) .nil)))
      = (some (copyEntries (.cons (String.toList "x.json") (.file (String.toList "A"))
          (.cons (String.toList "x.pdf") (.file (String.toList "B")) .nil))), false) ∧
     copyDataDirectory none = (none, true) ∧
     (lookupPath (.dir (copyEntries (.cons (String.toList "x.json") (.file (String.toList "A"))
          (.cons (String.toList "x.pdf") (.file (String.toList "B")) .nil))))
        [String.toList "x.json"] = some (.file (String.toList "A")) ↔
       lookupPath (.dir (.cons (String.toList "x.json") (.file (String.toList "A"))
          (.cons (String.toList "x.pdf") (.file (String.toList "B")) .nil)))
        [String.toList "x.json"] = some (.file (String.toList "A")) ∧
         extLower (baseOf [String.toList "x.json"]) = String.toList ".json")) ∧
    (lookupPath (.dir (copyEntries (.cons (String.toList "x.json") (.file (String.toList "A"))
          (.cons (String.toList "x.pdf") (.file (String.toList "B")) .nil))))
        [String.toList "x.pdf"] = some (.file (String.toList "B")) ↔
       lookupPath (.dir (.cons (String.toList "x.json") (.file (String.toList "A"))
          (.cons (String.toList "x.pdf") (.file (String.toList "B")) .nil)))
        [String.toList "x.pdf"] = some (.file (String.toList "B")) ∧
         extLower (baseOf [String.toList "x.pdf"]) = String.toList ".json") :=
  ⟨C8_data_stager (.cons (String.toList "x.json") (.file (String.toList "A"))
      (.cons (String.toList "x.pdf") (.file (String.toList "B")) .nil))
      [String.toList "x.json"] (String.toList "A") (by decide),
   (C8_data_stager (.cons (String.toList "x.json") (.file (String.toList "A"))
      (.cons (String.toList "x.pdf") (.file (String.toList "B")) .nil))
      [String.toList "x.pdf"] (String.toList "B") (by decide)).2.2⟩

/-- Claim C10: every subdirectory the data stager visits appears in the
output (the destination directory is created before any content
check), so a subdirectory with no `.json` file anywhere still shows up,
as an empty directory. -/
theorem C10_dirs_always_created : ∀ (p : List (List Char)) (es sub : EntryList),
    wfTree (.dir es) = true →
    lookupPath (.dir es) p = some (.dir sub) →
    lookupPath (.dir (copyEntries es)) p = some (.dir (copyEntries sub))
  | [], es, sub, _, h => by
    simp only [lookupPath] at h ⊢
    injection h with h1
    injection h1 with h2
    rw [h2]
  | n :: ps, es, sub, hwf, h => by
    obtain ⟨hnd, hwfe⟩ := wfTree_dir_nodup hwf
    simp only [lookupPath] at h ⊢
    cases hfe : findEntry es n with
    | none => rw [hfe] at h; exact Option.noConfusion h
    | some t =>
      rw [hfe] at h
      cases t with
      | file c2 =>
        cases ps with
        | nil => simp [lookupPath] at h
        | cons q qs => simp [lookupPath] at h
      | dir s =>
        rw [findEntry_copy_dir es n s hnd hfe]
        exact C10_dirs_always_created ps s sub (wf_findEntry es n (.dir s) hwfe hfe) h

/-- Witness for C10: a `data/llm` subdirectory holding only a PDF
still appears in the output, and its copy is the empty directory. -/
theorem C10_dirs_always_created_witness :
    lookupPath (.dir (copyEntries (.cons (String.toList "sub")
        (.dir (.cons (String.toList "doc.pdf") (.file (String.toList "P")) .nil)) .nil)))
      [String.toList "sub"]
      = some (.dir (copyEntries (.cons (String.toList "doc.pdf")
          (.file (String.toList "P")) .nil))) ∧
    copyEntries (.cons (String.toList "doc.pdf") (.file (String.toList "P")) .nil)
      = EntryList.nil :=
  ⟨C10_dirs_always_created [String.toList "sub"]
      (.cons (String.toList "sub")
        (.dir (.cons (String.toList "doc.pdf") (.file (String.toList "P")) .nil)) .nil)
      (.cons (String.toList "doc.pdf") (.file (String.toList "P")) .nil)
      (by decide) (by decide),
   by decide⟩

/-- Whether the text contains an adjacent slash-star pair, the opener
of a block comment. -/
def hasCommentOpen : List Char → Bool
  | [] => false
  | [_] => false
  | a :: b :: rest => ((a == '/') && (b == '*')) || hasCommentOpen (b :: rest)

/-- Every whitespace character in the text is a plain space. -/
def allSpace (l : List Char) : Prop :=
  ∀ c ∈ l, isWS c = true → c = ' '

/-- No two adjacent whitespace characters. -/
def noAdjWS (l : List Char) : Prop :=
  List.Chain' (fun a b => isWS a = true → isWS b = false) l

/-- No whitespace character adjacent to a `{ } : ; ,` character on
either side. -/
def noWsSpecialAdj (l : List Char) : Prop :=
  List.Chain' (fun a b =>
    ¬(isWS a = true ∧ isSpecial b = true) ∧ ¬(isSpecial a = true ∧ isWS b = true)) l

/-- The first character, if any, is not whitespace. -/
def headNotWS (l : List Char) : Prop :=
  ∀ c, l.head? = some c → isWS c = false

theorem isSpecial_not_ws {c : Char} (h : isSpecial c = true) : isWS c = false := by
  simp only [isSpecial, Bool.or_eq_true, beq_iff_eq, or_assoc] at h
  unfold isWS
  rcases h with h | h | h | h | h <;> rw [h] <;> rfl

theorem rcAux_none_id : ∀ l, hasCommentOpen l = false → rcAux none l = l
  | [], _ => rfl
  | [c], _ => rfl
  | a :: b :: rest, h => by
    rw [hasCommentOpen] at h
    simp only [Bool.or_eq_false_iff, Bool.and_eq_false_iff, beq_eq_false_iff_ne, ne_eq] at h
    have h1 : ¬(a = '/' ∧ b = '*') := by
      rcases h.1 with h' | h'
      · exact fun hc => h' hc.1
      · exact fun hc => h' hc.2
    rw [rcAux, if_neg h1, rcAux_none_id (b :: rest) h.2]

theorem allSpace_cons_of {c : Char} {l : List Char}
    (h1 : isWS c = true → c = ' ') (h2 : allSpace l) : allSpace (c :: l) := by
  intro x hx hw
  rcases List.mem_cons.mp hx with rfl | hx
  · exact h1 hw
  · exact h2 x hx hw

theorem allSpace_tail {c : Char} {l : List Char} (h : allSpace (c :: l)) : allSpace l :=
  fun x hx hw => h x (List.mem_cons_of_mem c hx) hw

theorem allSpace_head {c : Char} {l : List Char} (h : allSpace (c :: l))
    (hw : isWS c = true) : c = ' ' :=
  h c (List.mem_cons_self c l) hw

theorem allSpace_nil : allSpace [] := by
  intro x hx
  simp at hx

theorem noAdjWS_nil : noAdjWS [] := List.chain'_nil

theorem noAdjWS_tail {c : Char} {l : List Char} (h : noAdjWS (c :: l)) : noAdjWS l :=
  (List.chain'_cons'.mp h).2

theorem noAdjWS_cons_of {c : Char} {l : List Char}
    (h1 : ∀ d, l.head? = some d → isWS c = true → isWS d = false)
    (h2 : noAdjWS l) : noAdjWS (c :: l) :=
  List.chain'_cons'.mpr ⟨fun y hy hc => h1 y hy hc, h2⟩

theorem noAdjWS_pair {c d : Char} {l : List Char} (h : noAdjWS (c :: d :: l))
    (hc : isWS c = true) : isWS d = false :=
  (List.chain'_cons'.mp h).1 d rfl hc

theorem nws_nil : noWsSpecialAdj [] := List.chain'_nil

theorem nws_tail {c : Char} {l : List Char} (h : noWsSpecialAdj (c :: l)) :
    noWsSpecialAdj l :=
  (List.chain'_cons'.mp h).2

theorem nws_cons_of {c : Char} {l : List Char}
    (h1 : ∀ d, l.head? = some d →
      ¬(isWS c = true ∧ isSpecial d = true) ∧ ¬(isSpecial c = true ∧ isWS d = true))
    (h2 : noWsSpecialAdj l) : noWsSpecialAdj (c :: l) :=
  List.chain'_cons'.mpr ⟨h1, h2⟩

theorem nws_pair {c d : Char} {l : List Char} (h : noWsSpecialAdj (c :: d :: l)) :
    ¬(isWS c = true ∧ isSpecial d = true) ∧ ¬(isSpecial c = true ∧ isWS d = true) :=
  (List.chain'_cons'.mp h).1 d rfl

theorem allSpace_cwAux : ∀ (b : Bool) (l : List Char), allSpace (cwAux b l)
  | _, [] => allSpace_nil
  | b, c :: rest => by
    rw [cwAux]
    by_cases hw : isWS c
    · rw [if_pos hw]
      cases b with
      | true => exact allSpace_cwAux true rest
      | false =>
        exact allSpace_cons_of (fun _ => rfl) (allSpace_cwAux true rest)
    · rw [if_neg hw]
      exact allSpace_cons_of (fun h => absurd h hw) (allSpace_cwAux false rest)

theorem headNotWS_cwAux_true : ∀ l, headNotWS (cwAux true l)
  | [] => by
    intro c h
    simp [cwAux] at h
  | c :: rest => by
    rw [cwAux]
    by_cases hw : isWS c
    · rw [if_pos hw, if_pos rfl]
      exact headNotWS_cwAux_true rest
    · rw [if_neg hw]
      intro d hd
      rw [List.head?_cons, Option.some_inj] at hd
      rw [← hd]
      exact eq_false_of_ne_true hw

theorem noAdjWS_cwAux : ∀ (b : Bool) (l : List Char), noAdjWS (cwAux b l)
  | _, [] => noAdjWS_nil
  | b, c :: rest => by
    rw [cwAux]
    by_cases hw : isWS c
    · rw [if_pos hw]
      cases b with
      | true => exact noAdjWS_cwAux true rest
      | false =>
        refine noAdjWS_cons_of (fun d hd _ => ?_) (noAdjWS_cwAux true rest)
        exact headNotWS_cwAux_true rest d hd
    · rw [if_neg hw]
      refine noAdjWS_cons_of (fun d hd hc => ?_) (noAdjWS_cwAux false rest)
      exact absurd hc hw

theorem cwAux_id : ∀ l, allSpace l → noAdjWS l →
    cwAux false l = l ∧ (headNotWS l → cwAux true l = l)
  | [], _, _ => ⟨rfl, fun _ => rfl⟩
  | c :: rest, hsp, hadj => by
    constructor
    · rw [cwAux]
      by_cases hw : isWS c
      · rw [if_pos hw]
        have hc : c = ' ' := allSpace_head hsp hw
        have hrest : headNotWS rest := by
          intro d hd
          cases rest with
          | nil => simp at hd
          | cons d2 rest2 =>
            rw [List.head?_cons, Option.some_inj] at hd
            rw [← hd]
            exact noAdjWS_pair hadj hw
        rw [if_neg Bool.false_ne_true,
          (cwAux_id rest (allSpace_tail hsp) (noAdjWS_tail hadj)).2 hrest, hc]
      · rw [if_neg hw, (cwAux_id rest (allSpace_tail hsp) (noAdjWS_tail hadj)).1]
    · intro hhead
      rw [cwAux]
      have hw : isWS c = false := hhead c rfl
      rw [if_neg (by simp [hw]), (cwAux_id rest (allSpace_tail hsp) (noAdjWS_tail hadj)).1]

theorem isWS_not_special {c : Char} (h : isWS c = true) : isSpecial c = false := by
  by_cases hs : isSpecial c = true
  · rw [isSpecial_not_ws hs] at h
    exact Bool.noConfusion h
  · exact eq_false_of_ne_true hs

theorem headNotWS_nil : headNotWS [] := by
  intro c h
  simp at h

theorem headNotWS_cons {c : Char} {l : List Char} (h : isWS c = false) :
    headNotWS (c :: l) := by
  intro d hd
  rw [List.head?_cons, Option.some_inj] at hd
  rw [← hd]
  exact h

theorem props_cons_special {c : Char} {out : List Char} (hs : isSpecial c = true)
    (h1 : allSpace out) (h2 : noAdjWS out) (h3 : noWsSpecialAdj out) (h4 : headNotWS out) :
    allSpace (c :: out) ∧ noAdjWS (c :: out) ∧ noWsSpecialAdj (c :: out)
      ∧ headNotWS (c :: out) := by
  have hcw : isWS c = false := isSpecial_not_ws hs
  refine ⟨allSpace_cons_of (fun h => absurd h (by simp [hcw])) h1,
    noAdjWS_cons_of (fun d hd hc => absurd hc (by simp [hcw])) h2,
    nws_cons_of (fun d hd => ⟨fun hx => absurd hx.1 (by simp [hcw]), fun hx => ?_⟩) h3,
    headNotWS_cons hcw⟩
  exact absurd hx.2 (by simp [h4 d hd])

theorem props_cons_plain {c : Char} {out : List Char}
    (hcw : isWS c = false) (hcs : isSpecial c = false)
    (h1 : allSpace out) (h2 : noAdjWS out) (h3 : noWsSpecialAdj out) :
    allSpace (c :: out) ∧ noAdjWS (c :: out) ∧ noWsSpecialAdj (c :: out)
      ∧ headNotWS (c :: out) := by
  refine ⟨allSpace_cons_of (fun h => absurd h (by simp [hcw])) h1,
    noAdjWS_cons_of (fun d hd hc => absurd hc (by simp [hcw])) h2,
    nws_cons_of (fun d hd => ⟨fun hx => absurd hx.1 (by simp [hcw]),
      fun hx => absurd hx.1 (by simp [hcs])⟩) h3,
    headNotWS_cons hcw⟩

theorem ssAux_props : ∀ (k : Nat) (l : List Char), l.length ≤ k → allSpace l → noAdjWS l →
    (allSpace (ssAux true [] l) ∧ noAdjWS (ssAux true [] l) ∧ noWsSpecialAdj (ssAux true [] l)
      ∧ headNotWS (ssAux true [] l)) ∧
    (allSpace (ssAux false [] l) ∧ noAdjWS (ssAux false [] l)
      ∧ noWsSpecialAdj (ssAux false [] l)) := by
  intro k
  induction k with
  | zero =>
    intro l hl _ _
    have hnil : l = [] := List.length_eq_zero.mp (Nat.le_zero.mp hl)
    subst hnil
    exact ⟨⟨allSpace_nil, noAdjWS_nil, nws_nil, headNotWS_nil⟩,
      allSpace_nil, noAdjWS_nil, nws_nil⟩
  | succ k ih =>
    intro l hl hsp hadj
    cases l with
    | nil =>
      exact ⟨⟨allSpace_nil, noAdjWS_nil, nws_nil, headNotWS_nil⟩,
        allSpace_nil, noAdjWS_nil, nws_nil⟩
    | cons c rest =>
      have hlen : rest.length ≤ k := by
        simp only [List.length_cons] at hl
        omega
      have IH := ih rest hlen (allSpace_tail hsp) (noAdjWS_tail hadj)
      by_cases hs : isSpecial c = true
      · have heq1 : ssAux true [] (c :: rest) = c :: ssAux true [] rest := by
          rw [ssAux, if_pos hs]
        have heq2 : ssAux false [] (c :: rest) = c :: ssAux true [] rest := by
          rw [ssAux, if_pos hs]
        have hfacts := props_cons_special hs IH.1.1 IH.1.2.1 IH.1.2.2.1 IH.1.2.2.2
        rw [heq1, heq2]
        exact ⟨hfacts, hfacts.1, hfacts.2.1, hfacts.2.2.1⟩
      · by_cases hw : isWS c = true
        · -- whitespace character
          have heq1 : ssAux true [] (c :: rest) = ssAux true [] rest := by
            rw [ssAux, if_neg hs, if_pos hw, if_pos rfl]
          have heq2 : ssAux false [] (c :: rest) = ssAux false [c] rest := by
            rw [ssAux, if_neg hs, if_pos hw, if_neg Bool.false_ne_true]
            simp
          have hc : c = ' ' := allSpace_head hsp hw
          refine ⟨heq1 ▸ IH.1, ?_⟩
          rw [heq2]
          cases rest with
          | nil =>
            refine ⟨allSpace_cons_of (fun _ => hc) allSpace_nil,
              List.chain'_singleton c, List.chain'_singleton c⟩
          | cons d rest2 =>
            have hdw : isWS d = false := noAdjWS_pair hadj hw
            have hlen2 : rest2.length ≤ k := by
              simp only [List.length_cons] at hl
              omega
            have IH2 := ih rest2 hlen2 (allSpace_tail (allSpace_tail hsp))
              (noAdjWS_tail (noAdjWS_tail hadj))
            by_cases hds : isSpecial d = true
            · have heq3 : ssAux false [c] (d :: rest2) = d :: ssAux true [] rest2 := by
                rw [ssAux, if_pos hds]
              rw [heq3]
              have hfacts := props_cons_special hds IH2.1.1 IH2.1.2.1 IH2.1.2.2.1 IH2.1.2.2.2
              exact ⟨hfacts.1, hfacts.2.1, hfacts.2.2.1⟩
            · have heq3 : ssAux false [c] (d :: rest2)
                  = c :: d :: ssAux false [] rest2 := by
                rw [ssAux, if_neg hds, if_neg (by simp [hdw])]
                rfl
              rw [heq3]
              have hdfacts := props_cons_plain hdw (eq_false_of_ne_true hds)
                IH2.2.1 IH2.2.2.1 IH2.2.2.2
              refine ⟨allSpace_cons_of (fun _ => hc) hdfacts.1,
                noAdjWS_cons_of (fun e he _ => ?_) hdfacts.2.1,
                nws_cons_of (fun e he => ?_) hdfacts.2.2.1⟩
              · rw [List.head?_cons, Option.some_inj] at he
                rw [← he]
                exact hdw
              · rw [List.head?_cons, Option.some_inj] at he
                refine ⟨fun hx => ?_, fun hx => ?_⟩
                · rw [← he] at hx
                  rcases hx with ⟨_, hx2⟩
                  rw [eq_false_of_ne_true hds] at hx2
                  exact Bool.noConfusion hx2
                · rcases hx with ⟨hx1, _⟩
                  rw [isWS_not_special hw] at hx1
                  exact Bool.noConfusion hx1
        · -- plain character
          have hwf : isWS c = false := eq_false_of_ne_true hw
          have hcs : isSpecial c = false := eq_false_of_ne_true hs
          have heq1 : ssAux true [] (c :: rest) = c :: ssAux false [] rest := by
            rw [ssAux, if_neg hs, if_neg (by simp [hwf])]
            rfl
          have heq2 : ssAux false [] (c :: rest) = c :: ssAux false [] rest := by
            rw [ssAux, if_neg hs, if_neg (by simp [hwf])]
            rfl
          have hfacts := props_cons_plain hwf hcs IH.2.1 IH.2.2.1 IH.2.2.2
          rw [heq1, heq2]
          exact ⟨hfacts, hfacts.1, hfacts.2.1, hfacts.2.2.1⟩

theorem ssAux_id : ∀ (k : Nat) (l : List Char), l.length ≤ k →
    allSpace l → noAdjWS l → noWsSpecialAdj l →
    ssAux false [] l = l ∧ (headNotWS l → ssAux true [] l = l) := by
  intro k
  induction k with
  | zero =>
    intro l hl _ _ _
    have hnil : l = [] := List.length_eq_zero.mp (Nat.le_zero.mp hl)
    subst hnil
    exact ⟨rfl, fun _ => rfl⟩
  | succ k ih =>
    intro l hl hsp hadj hnws
    cases l with
    | nil => exact ⟨rfl, fun _ => rfl⟩
    | cons c rest =>
      have hlen : rest.length ≤ k := by
        simp only [List.length_cons] at hl
        omega
      by_cases hs : isSpecial c = true
      · have hrest_head : headNotWS rest := by
          cases rest with
          | nil => exact headNotWS_nil
          | cons d rest2 =>
            refine headNotWS_cons ?_
            by_cases hdw : isWS d = true
            · exact absurd ⟨hs, hdw⟩ (nws_pair hnws).2
            · exact eq_false_of_ne_true hdw
        have htail := (ih rest hlen (allSpace_tail hsp) (noAdjWS_tail hadj)
          (nws_tail hnws)).2 hrest_head
        constructor
        · rw [ssAux, if_pos hs, htail]
        · intro _
          rw [ssAux, if_pos hs, htail]
      · by_cases hw : isWS c = true
        · constructor
          · rw [ssAux, if_neg hs, if_pos hw, if_neg Bool.false_ne_true]
            cases rest with
            | nil => rfl
            | cons d rest2 =>
              have hdw : isWS d = false := noAdjWS_pair hadj hw
              have hds : isSpecial d = false := by
                by_cases h' : isSpecial d = true
                · exact absurd ⟨hw, h'⟩ (nws_pair hnws).1
                · exact eq_false_of_ne_true h'
              have hlen2 : rest2.length ≤ k := by
                simp only [List.length_cons] at hl
                omega
              have htl := (ih rest2 hlen2 (allSpace_tail (allSpace_tail hsp))
                (noAdjWS_tail (noAdjWS_tail hadj)) (nws_tail (nws_tail hnws))).1
              show ssAux false ([] ++ [c]) (d :: rest2) = c :: d :: rest2
              rw [ssAux, if_neg (by simp [hds]), if_neg (by simp [hdw]), htl]
              rfl
          · intro hhead
            exact absurd (hhead c rfl) (by simp [hw])
        · have hwf : isWS c = false := eq_false_of_ne_true hw
          have htl := (ih rest hlen (allSpace_tail hsp) (noAdjWS_tail hadj)
            (nws_tail hnws)).1
          constructor
          · rw [ssAux, if_neg hs, if_neg (by simp [hwf]), htl]
            rfl
          · intro _
            rw [ssAux, if_neg hs, if_neg (by simp [hwf]), htl]
            rfl

theorem headNotWS_dropWhile (l : List Char) : headNotWS (l.dropWhile isWS) := by
  induction l with
  | nil => exact headNotWS_nil
  | cons c rest ih =>
    rw [List.dropWhile_cons]
    by_cases hw : isWS c = true
    · rw [if_pos hw]
      exact ih
    · rw [if_neg (by simp [hw])]
      exact headNotWS_cons (eq_false_of_ne_true hw)

theorem dropWhile_eq_self_of_headNotWS {l : List Char} (h : headNotWS l) :
    l.dropWhile isWS = l := by
  cases l with
  | nil => rfl
  | cons c rest => rw [List.dropWhile_cons, if_neg (by simp [h c rfl])]

theorem allSpace_mono {l' l : List Char} (hsub : List.Sublist l' l) (h : allSpace l) :
    allSpace l' :=
  fun x hx hw => h x (hsub.subset hx) hw

theorem trimChars_split (l : List Char) :
    trimChars l ++ ((l.dropWhile isWS).reverse.takeWhile isWS).reverse
      = l.dropWhile isWS := by
  rw [trimChars, ← List.reverse_append,
    List.takeWhile_append_dropWhile isWS (l.dropWhile isWS).reverse,
    List.reverse_reverse]

theorem trimChars_isPrefix (l : List Char) : trimChars l <+: l.dropWhile isWS :=
  ⟨((l.dropWhile isWS).reverse.takeWhile isWS).reverse, trimChars_split l⟩

theorem trimChars_allSpace {l : List Char} (h : allSpace l) : allSpace (trimChars l) :=
  allSpace_mono ((trimChars_isPrefix l).sublist.trans
    (List.dropWhile_sublist isWS)) h

theorem trimChars_noAdjWS {l : List Char} (h : noAdjWS l) : noAdjWS (trimChars l) :=
  List.Chain'.prefix (List.Chain'.suffix h (List.dropWhile_suffix isWS))
    (trimChars_isPrefix l)

theorem trimChars_nws {l : List Char} (h : noWsSpecialAdj l) :
    noWsSpecialAdj (trimChars l) :=
  List.Chain'.prefix (List.Chain'.suffix h (List.dropWhile_suffix isWS))
    (trimChars_isPrefix l)

theorem trimChars_headNotWS (l : List Char) : headNotWS (trimChars l) := by
  cases hr : trimChars l with
  | nil => exact hr ▸ headNotWS_nil
  | cons a as =>
    refine headNotWS_cons ?_
    have hsplit := trimChars_split l
    rw [hr] at hsplit
    exact headNotWS_dropWhile l a (by rw [← hsplit]; rfl)

theorem trimChars_reverse_headNotWS (l : List Char) :
    headNotWS (trimChars l).reverse := by
  rw [trimChars, List.reverse_reverse]
  exact headNotWS_dropWhile _

theorem trimChars_id {l : List Char} (h1 : headNotWS l) (h2 : headNotWS l.reverse) :
    trimChars l = l := by
  rw [trimChars, dropWhile_eq_self_of_headNotWS h1,
    dropWhile_eq_self_of_headNotWS h2, List.reverse_reverse]

/-- Claim C4 as stated is false: removing the comment `/*c*/` from
`//*c*/* d */` splices the remaining characters into the new block
comment `/* d */`, which one application of the CSS minifier leaves in
place (comment stripping is a single pass) and a second application
deletes. -/
theorem C4_counterexample :
    cssMinify (String.toList "//*c*/* d */") = String.toList "/* d */" ∧
    ¬ (cssMinify (cssMinify (String.toList "//*c*/* d */"))
        = cssMinify (String.toList "//*c*/* d */")) := by
  constructor
  · decide
  · decide

/-- Claim C4 amended: the CSS minification transform is idempotent on
every input whose minified output contains no block-comment opener
`/*` (re-minifying such an output changes nothing; the transform is
not idempotent in general, see the counterexample). -/
theorem C4_cssMinify_idempotent (l : List Char)
    (h : hasCommentOpen (cssMinify l) = false) :
    cssMinify (cssMinify l) = cssMinify l := by
  have hsp1 : allSpace (collapseWS (removeComments l)) := allSpace_cwAux false _
  have hadj1 : noAdjWS (collapseWS (removeComments l)) := noAdjWS_cwAux false _
  have hx2 := (ssAux_props (collapseWS (removeComments l)).length
    (collapseWS (removeComments l)) le_rfl hsp1 hadj1).2
  have hsp_t : allSpace (cssMinify l) := trimChars_allSpace hx2.1
  have hadj_t : noAdjWS (cssMinify l) := trimChars_noAdjWS hx2.2.1
  have hnws_t : noWsSpecialAdj (cssMinify l) := trimChars_nws hx2.2.2
  have hrc : removeComments (cssMinify l) = cssMinify l := rcAux_none_id _ h
  have hcw : collapseWS (cssMinify l) = cssMinify l :=
    (cwAux_id _ hsp_t hadj_t).1
  have hss : stripSpecial (cssMinify l) = cssMinify l :=
    (ssAux_id (cssMinify l).length _ le_rfl hsp_t hadj_t hnws_t).1
  show trimChars (stripSpecial (collapseWS (removeComments (cssMinify l)))) = cssMinify l
  rw [hrc, hcw, hss]
  exact trimChars_id (trimChars_headNotWS _) (trimChars_reverse_headNotWS _)

/-- Witness for C4 (amended) on ordinary commented CSS, whose minified
form has no comment opener. -/
theorem C4_cssMinify_idempotent_witness :
    hasCommentOpen (cssMinify
        (String.toList "  .a , .b \x7b color : red ; \x7d /* note */ ")) = false ∧
    cssMinify (cssMinify (String.toList "  .a , .b \x7b color : red ; \x7d /* note */ "))
      = cssMinify (String.toList "  .a , .b \x7b color : red ; \x7d /* note */ ") :=
  ⟨by decide,
    C4_cssMinify_idempotent (String.toList "  .a , .b \x7b color : red ; \x7d /* note */ ")
      (by decide)⟩

end GulluBuild
